import Mathlib

/-!
Shallow embedding of the fruit-wholesaler inventory/ledger application
(source: `src/d.py`) and proofs about its core operations.

Modelling conventions:
* Currency values (Python floats) are modelled as rationals (`ℚ`).
* Dates (ISO-8601 strings in the source, compared lexicographically, which
  coincides with chronological order) are modelled as `Nat` with the usual order.
* The database tables (`stock`, `vendors`, `sales`, `returns`, `payments`) are
  modelled as lists of rows in insertion order; the autoincrement primary key of
  each table is modelled by a `next…Id` counter carried in the state.
* Python's stable `list.sort(key=...)` is modelled by `List.mergeSort` on the
  corresponding key.  pandas' `sort_values` (default kind quicksort, which is
  not stable) guarantees no order among equal keys, so it is modelled
  relationally, as an arbitrary key-sorted permutation of the frame.
* Fallible operations return the new state paired with the success flag that the
  Python functions return (`Bool`), or a dedicated result type where the source
  distinguishes failure messages.
-/

/-- Python `str.upper()` restricted to the char-wise uppercase map. -/
def pyUpper (s : String) : String := ⟨s.data.map Char.toUpper⟩

/-- Python `str.strip()`: drop leading and trailing whitespace. -/
def pyStrip (s : String) : String :=
  ⟨((s.data.dropWhile Char.isWhitespace).reverse.dropWhile Char.isWhitespace).reverse⟩

/-- `safe_divide` from `src/d.py`: division that returns the default 0 on a zero
denominator. -/
def safe_divide (numerator denominator : ℚ) : ℚ :=
  if denominator ≠ 0 then numerator / denominator else 0

/-- A row of the `stock` table: one intake lot. -/
structure StockLot where
  id : Nat
  fruit : String
  quantity : Nat
  cost_price : ℚ
  date : Nat
  remaining : Nat
deriving DecidableEq, Repr

/-- A row of the `sales` table. -/
structure Sale where
  id : Nat
  dt : Nat
  vendor_id : Nat
  fruit : String
  boxes : Int
  price_per_box : ℚ
  total_price : ℚ
  box_deposit_per_box : ℚ
  box_deposit_collected : ℚ
  note : String
deriving DecidableEq, Repr

/-- A row of the `returns` table. -/
structure ReturnRec where
  id : Nat
  dt : Nat
  vendor_id : Nat
  fruit : String
  boxes_returned : Nat
  box_deposit_refunded : ℚ
  note : String
deriving DecidableEq, Repr

/-- A row of the `payments` table. -/
structure Payment where
  id : Nat
  dt : Nat
  vendor_id : Nat
  amount : ℚ
  note : String
deriving DecidableEq, Repr

/-- A row of the `vendors` table. -/
structure Vendor where
  id : Nat
  name : String
  contact : String
deriving DecidableEq, Repr

/-- The persistent state of the application: the five database tables together
with the autoincrement counters that assign primary keys. -/
structure AppState where
  stock : List StockLot
  vendors : List Vendor
  sales : List Sale
  returns : List ReturnRec
  payments : List Payment
  nextStockId : Nat
  nextVendorId : Nat
  nextSaleId : Nat
  nextReturnId : Nat
  nextPaymentId : Nat
deriving DecidableEq, Repr

/-- The empty database. -/
def initState : AppState :=
  { stock := [], vendors := [], sales := [], returns := [], payments := [],
    nextStockId := 1, nextVendorId := 1, nextSaleId := 1, nextReturnId := 1,
    nextPaymentId := 1 }

/-- `add_stock` from `src/d.py`: validates the input and inserts a new stock lot
with `fruit.upper().strip()` as key and `remaining = quantity = boxes`. -/
def add_stock (s : AppState) (fruit : String) (boxes : Int) (cost_per_box : ℚ)
    (dt : Nat) : AppState × Bool :=
  if pyStrip fruit = "" then (s, false)
  else if boxes ≤ 0 then (s, false)
  else if cost_per_box < 0 then (s, false)
  else
    ({ s with
        stock := s.stock ++
          [⟨s.nextStockId, pyStrip (pyUpper fruit), boxes.toNat, cost_per_box, dt,
            boxes.toNat⟩],
        nextStockId := s.nextStockId + 1 }, true)

/-- `add_vendor` from `src/d.py`. -/
def add_vendor (s : AppState) (name contact : String) : AppState × Bool :=
  if pyStrip name = "" then (s, false)
  else if ¬ ((pyStrip contact).data.all Char.isDigit) then (s, false)
  else if (pyStrip contact).length ≠ 10 then (s, false)
  else
    ({ s with
        vendors := s.vendors ++ [⟨s.nextVendorId, pyStrip name, pyStrip contact⟩],
        nextVendorId := s.nextVendorId + 1 }, true)

/-- The per-fruit stock total that `get_current_stock()[fruit]`/`.get(fruit, 0)`
yields: the sum of `remaining` over all lots of that fruit (lots with
`remaining = 0` contribute 0, so excluding them, as the source's dict does,
gives the same total). -/
def currentStockOf (stock : List StockLot) (fruit : String) : Nat :=
  ((stock.filter fun l => l.fruit = fruit).map StockLot.remaining).sum

/-- The candidate rows selected by `reduce_stock_fifo`:
`stock` rows with the given fruit and `remaining > 0`. -/
def liveLots (stock : List StockLot) (fruit : String) : List StockLot :=
  stock.filter fun l => l.fruit = fruit && l.remaining > 0

/-- The FIFO ordering used by `reduce_stock_fifo`:
`key=lambda x: (x.get('date', ''), x.get('id', 0))`. -/
def fifoLe (a b : StockLot) : Bool :=
  if a.date = b.date then a.id ≤ b.id else a.date < b.date

/-- The candidate rows of `reduce_stock_fifo` after the Python-side
`stock_entries.sort(key=lambda x: (x.get('date', ''), x.get('id', 0)))`. -/
def sortedLiveLots (stock : List StockLot) (fruit : String) : List StockLot :=
  (liveLots stock fruit).mergeSort fifoLe

/-- The loop body of `reduce_stock_fifo`: walk the sorted entries, and for each
entry with a positive `remaining` take `min(available, remaining_to_reduce)`,
recording the update `(entry, new_remaining)` that the source immediately
persists; stop when nothing is left to reduce.  Returns the recorded updates and
the final `remaining_to_reduce`. -/
def fifoWalk : List StockLot → Nat → List (StockLot × Nat) × Nat
  | [], left => ([], left)
  | e :: rest, left =>
    if left = 0 then ([], 0)
    else if e.remaining = 0 then fifoWalk rest left
    else
      ((e, e.remaining - min e.remaining left) ::
          (fifoWalk rest (left - min e.remaining left)).1,
        (fifoWalk rest (left - min e.remaining left)).2)

/-- Persist a single `update({"remaining": r}).eq("id", i)` against the stock
table. -/
def updateRemaining (stock : List StockLot) (i : Nat) (r : Nat) : List StockLot :=
  stock.map fun lot => if lot.id = i then { lot with remaining := r } else lot

/-- Persist the sequence of per-row updates recorded by `fifoWalk`, in order. -/
def applyUpdates (stock : List StockLot) (ups : List (StockLot × Nat)) :
    List StockLot :=
  ups.foldl (fun acc u => updateRemaining acc u.1.id u.2) stock

/-- Result of `reduce_stock_fifo`, mirroring its three outcomes: success,
"No stock found/available", and "Insufficient stock. Short by k boxes". -/
inductive FifoResult where
  | ok
  | noStock
  | shortBy (missing : Nat)
deriving DecidableEq, Repr

/-- `reduce_stock_fifo` from `src/d.py`.  The source selects the fruit's rows
with `remaining > 0`, sorts them by `(date, id)`, walks them persisting each
row's decrement immediately, and only afterwards checks whether anything is
still missing.  The recorded updates are therefore applied to the table even
when the function ends up reporting a shortfall. -/
def reduce_stock_fifo (stock : List StockLot) (fruit : String)
    (boxes_to_reduce : Nat) : List StockLot × FifoResult :=
  if (sortedLiveLots stock fruit).isEmpty then (stock, FifoResult.noStock)
  else
    (applyUpdates stock (fifoWalk (sortedLiveLots stock fruit) boxes_to_reduce).1,
      if 0 < (fifoWalk (sortedLiveLots stock fruit) boxes_to_reduce).2 then
        FifoResult.shortBy (fifoWalk (sortedLiveLots stock fruit) boxes_to_reduce).2
      else FifoResult.ok)

/-- `sell_to_vendor` from `src/d.py`: validate, check the cached stock total,
run the FIFO depletion, then insert the sale row with the derived totals. -/
def sell_to_vendor (s : AppState) (dt : Nat) (vendor_id : Nat) (fruit : String)
    (boxes : Int) (price_per_box box_deposit_per_box : ℚ) (note : String) :
    AppState × Bool :=
  if boxes ≤ 0 then (s, false)
  else if price_per_box < 0 ∨ box_deposit_per_box < 0 then (s, false)
  else if (currentStockOf s.stock fruit : Int) < boxes then (s, false)
  else
    match reduce_stock_fifo s.stock fruit boxes.toNat with
    | (stock', FifoResult.ok) =>
      ({ s with
          stock := stock',
          sales := s.sales ++
            [⟨s.nextSaleId, dt, vendor_id, fruit, boxes, price_per_box,
              (boxes : ℚ) * price_per_box, box_deposit_per_box,
              (boxes : ℚ) * box_deposit_per_box, note⟩],
          nextSaleId := s.nextSaleId + 1 }, true)
    | (stock', _) => ({ s with stock := stock' }, false)

/-- The inline weighted-average computation in `record_return`: over all stock
rows of the fruit (no date filter), `Σ(cost_price·quantity) / Σquantity` when
`Σquantity > 0`, else the initial `avg_cost = 0.0`. -/
def return_avg_cost (stock : List StockLot) (fruit : String) : ℚ :=
  let lots := stock.filter fun l => l.fruit = fruit
  let total_qty := (lots.map fun l => (l.quantity : ℚ)).sum
  if 0 < total_qty then
    safe_divide ((lots.map fun l => (l.quantity : ℚ) * l.cost_price).sum) total_qty
  else 0

/-- `record_return` from `src/d.py`: validate, insert the return row with
`box_deposit_refunded = boxes_returned * box_deposit_per_box`, compute the
average cost over the fruit's existing lots, then insert a new stock lot with
that cost and `quantity = remaining = boxes_returned`.  The fruit string is
inserted as given (no normalization in this function). -/
def record_return (s : AppState) (dt : Nat) (vendor_id : Nat) (fruit : String)
    (boxes_returned : Int) (box_deposit_per_box : ℚ) (note : String) :
    AppState × Bool :=
  if boxes_returned ≤ 0 then (s, false)
  else if box_deposit_per_box < 0 then (s, false)
  else
    ({ s with
        returns := s.returns ++
          [⟨s.nextReturnId, dt, vendor_id, fruit, boxes_returned.toNat,
            (boxes_returned : ℚ) * box_deposit_per_box, note⟩],
        stock := s.stock ++
          [⟨s.nextStockId, fruit, boxes_returned.toNat,
            return_avg_cost s.stock fruit, dt, boxes_returned.toNat⟩],
        nextReturnId := s.nextReturnId + 1,
        nextStockId := s.nextStockId + 1 }, true)

/-- `record_payment` from `src/d.py`. -/
def record_payment (s : AppState) (dt : Nat) (vendor_id : Nat) (amount : ℚ)
    (note : String) : AppState × Bool :=
  if amount ≤ 0 then (s, false)
  else
    ({ s with
        payments := s.payments ++
          [⟨s.nextPaymentId, dt, vendor_id, amount, note⟩],
        nextPaymentId := s.nextPaymentId + 1 }, true)

/-- The update dictionary passed to `update_sale_record`.  The two `Option`
fields model the stored derived columns that the edit snapshot may carry; the
source overwrites `updated_data['total_price']` and
`updated_data['box_deposit_collected']` before writing, so they never reach the
table. -/
structure SaleUpdate where
  dt : Nat
  fruit : String
  boxes : Int
  price_per_box : ℚ
  box_deposit_per_box : ℚ
  note : String
  total_price : Option ℚ
  box_deposit_collected : Option ℚ
deriving DecidableEq, Repr

/-- `update_sale_record` from `src/d.py`: recompute the derived totals from the
submitted boxes/price/deposit, drop `vendor_name`/`id`, and update the sales
row(s) with the given id.  The stock table is not touched. -/
def update_sale_record (s : AppState) (sale_id : Nat) (u : SaleUpdate) :
    AppState × Bool :=
  ({ s with
      sales := s.sales.map fun sale =>
        if sale.id = sale_id then
          { sale with
              dt := u.dt, fruit := u.fruit, boxes := u.boxes,
              price_per_box := u.price_per_box,
              total_price := (u.boxes : ℚ) * u.price_per_box,
              box_deposit_per_box := u.box_deposit_per_box,
              box_deposit_collected := (u.boxes : ℚ) * u.box_deposit_per_box,
              note := u.note }
        else sale }, true)

/-- `delete_sale_record` from `src/d.py`: delete the sales row(s) with the given
id; nothing else is written. -/
def delete_sale_record (s : AppState) (sale_id : Nat) : AppState × Bool :=
  ({ s with sales := s.sales.filter fun sale => sale.id ≠ sale_id }, true)

/-- The rows selected by `compute_weighted_avg_cost`: the fruit's stock rows,
restricted to `date ≤ up_to_date` when a date is supplied. -/
def eligibleLots (stock : List StockLot) (fruit : String)
    (up_to_date : Option Nat) : List StockLot :=
  stock.filter fun l =>
    l.fruit = fruit &&
      (match up_to_date with
       | some d => l.date ≤ d
       | none => true)

/-- `compute_weighted_avg_cost` from `src/d.py`: 0 when the query returns no
rows, otherwise `safe_divide(Σ(quantity·cost_price), Σquantity)`.  The weights
are the intake `quantity` column, not `remaining`. -/
def compute_weighted_avg_cost (stock : List StockLot) (fruit : String)
    (up_to_date : Option Nat) : ℚ :=
  if (eligibleLots stock fruit up_to_date).isEmpty then 0
  else
    safe_divide
      (((eligibleLots stock fruit up_to_date).map
          fun l => (l.quantity : ℚ) * l.cost_price).sum)
      (((eligibleLots stock fruit up_to_date).map fun l => (l.quantity : ℚ)).sum)

/-- Entry kinds of the vendor ledger. -/
inductive EntryType where
  | SALE
  | PAYMENT
  | RETURN
deriving DecidableEq, Repr

/-- One pre-cumsum row of `vendor_ledger_df`. -/
structure LedgerRow where
  date : Nat
  type : EntryType
  fruit : Option String
  qty : Option Int
  sale_amount : ℚ
  deposit : ℚ
  note : String
deriving DecidableEq, Repr

/-- The ledger row built from a sales row. -/
def saleRowOf (x : Sale) : LedgerRow :=
  ⟨x.dt, EntryType.SALE, some x.fruit, some x.boxes, x.total_price,
    x.box_deposit_collected, x.note⟩

/-- The ledger row built from a payments row. -/
def paymentRowOf (p : Payment) : LedgerRow :=
  ⟨p.dt, EntryType.PAYMENT, none, none, -p.amount, 0, p.note⟩

/-- The ledger row built from a returns row. -/
def returnRowOf (r : ReturnRec) : LedgerRow :=
  ⟨r.dt, EntryType.RETURN, some r.fruit, some (-(r.boxes_returned : Int)), 0,
    -r.box_deposit_refunded, r.note⟩

/-- The concatenated frame `pd.concat([sales, payments, returns])` of
`vendor_ledger_df`, before sorting: the vendor's sales block, then its payments
block, then its returns block, each in table order. -/
def ledgerBase (s : AppState) (vendor_id : Nat) : List LedgerRow :=
  ((s.sales.filter fun x => x.vendor_id = vendor_id).map saleRowOf)
    ++ ((s.payments.filter fun p => p.vendor_id = vendor_id).map paymentRowOf)
    ++ ((s.returns.filter fun r => r.vendor_id = vendor_id).map returnRowOf)

/-- The sort key of `df.sort_values("date")`. -/
def dateLe (a b : LedgerRow) : Bool := a.date ≤ b.date

/-- The trailing `cumsum` columns of `vendor_ledger_df`: pair every row with the
running `running_due`/`running_deposits` totals. -/
def addRunning : List LedgerRow → ℚ → ℚ → List (LedgerRow × ℚ × ℚ)
  | [], _, _ => []
  | r :: rest, due, dep =>
    (r, due + r.sale_amount, dep + r.deposit) ::
      addRunning rest (due + r.sale_amount) (dep + r.deposit)

/-- `vendor_ledger_df` from `src/d.py`, as an output relation.  The source
concatenates the vendor's sale, payment and return rows, sorts the frame with
`df.sort_values("date")` — whose default kind (quicksort) is not stable, so no
particular order of equal-date rows is guaranteed — and appends the running
`cumsum` columns.  `VendorLedger s vendor_id rows` holds exactly when `rows` is
a possible output: the running columns appended to some date-sorted permutation
of the vendor's concatenated rows. -/
def VendorLedger (s : AppState) (vendor_id : Nat)
    (rows : List (LedgerRow × ℚ × ℚ)) : Prop :=
  ∃ sorted : List LedgerRow,
    sorted.Perm (ledgerBase s vendor_id)
      ∧ List.Pairwise (fun a b => dateLe a b = true) sorted
      ∧ rows = addRunning sorted 0 0

/-- The operations of the application that write to the database, as invoked by
the UI layer. -/
inductive Op where
  | add (fruit : String) (boxes : Int) (cost_per_box : ℚ) (dt : Nat)
  | vend (name contact : String)
  | sell (dt : Nat) (vendor_id : Nat) (fruit : String) (boxes : Int)
      (price_per_box box_deposit_per_box : ℚ) (note : String)
  | ret (dt : Nat) (vendor_id : Nat) (fruit : String) (boxes_returned : Int)
      (box_deposit_per_box : ℚ) (note : String)
  | pay (dt : Nat) (vendor_id : Nat) (amount : ℚ) (note : String)
  | upd (sale_id : Nat) (u : SaleUpdate)
  | del (sale_id : Nat)
deriving Repr

/-- Run one operation against the state. -/
def applyOp (s : AppState) (op : Op) : AppState :=
  match op with
  | Op.add fruit boxes cost dt => (add_stock s fruit boxes cost dt).1
  | Op.vend name contact => (add_vendor s name contact).1
  | Op.sell dt vid fruit boxes price dep note =>
      (sell_to_vendor s dt vid fruit boxes price dep note).1
  | Op.ret dt vid fruit boxes dep note =>
      (record_return s dt vid fruit boxes dep note).1
  | Op.pay dt vid amount note => (record_payment s dt vid amount note).1
  | Op.upd sale_id u => (update_sale_record s sale_id u).1
  | Op.del sale_id => (delete_sale_record s sale_id).1

/-- Run a sequence of operations. -/
def runOps (ops : List Op) (s : AppState) : AppState := ops.foldl applyOp s

/-- Sum of `remaining` over a fruit's stock lots. -/
def fruitRemaining (stock : List StockLot) (fruit : String) : Nat :=
  ((stock.filter fun l => l.fruit = fruit).map StockLot.remaining).sum

/-- The `remaining` column of the stock row with the given id (0 if absent). -/
def remainingOf (stock : List StockLot) (i : Nat) : Nat :=
  match stock.find? fun l => l.id = i with
  | some l => l.remaining
  | none => 0

/-! ### Lemmas about the FIFO walk -/

theorem fifoWalk_consumed : ∀ (es : List StockLot) (left : Nat),
    ((fifoWalk es left).1.map fun u => u.1.remaining - u.2).sum
      + (fifoWalk es left).2 = left
  | [], left => by simp [fifoWalk]
  | e :: rest, left => by
    by_cases h0 : left = 0
    · simp [fifoWalk, h0]
    · by_cases hr : e.remaining = 0
      · simpa [fifoWalk, h0, hr] using fifoWalk_consumed rest left
      · have ih := fifoWalk_consumed rest (left - min e.remaining left)
        simp only [fifoWalk, if_neg h0, if_neg hr, List.map_cons, List.sum_cons]
        omega

theorem fifoWalk_fst_sublist : ∀ (es : List StockLot) (left : Nat),
    ((fifoWalk es left).1.map Prod.fst).Sublist es
  | [], left => by simp [fifoWalk]
  | e :: rest, left => by
    by_cases h0 : left = 0
    · simp [fifoWalk, h0]
    · by_cases hr : e.remaining = 0
      · simpa [fifoWalk, h0, hr] using
          (fifoWalk_fst_sublist rest left).trans (List.sublist_cons_self e rest)
      · simpa [fifoWalk, h0, hr] using
          (fifoWalk_fst_sublist rest (left - min e.remaining left)).cons₂ e

theorem fifoWalk_snd_le_fst : ∀ (es : List StockLot) (left : Nat),
    ∀ u ∈ (fifoWalk es left).1, u.2 ≤ u.1.remaining
  | [], left => by simp [fifoWalk]
  | e :: rest, left => by
    by_cases h0 : left = 0
    · simp [fifoWalk, h0]
    · by_cases hr : e.remaining = 0
      · simpa [fifoWalk, h0, hr] using fifoWalk_snd_le_fst rest left
      · intro u hu
        simp only [fifoWalk, if_neg h0, if_neg hr, List.mem_cons] at hu
        rcases hu with rfl | hu
        · simp
        · exact fifoWalk_snd_le_fst rest (left - min e.remaining left) u hu

/-- The final value recorded for a lot by a list of updates: the update found
for its id, or its current `remaining` if it was not touched. -/
def finalOf (ups : List (StockLot × Nat)) (lot : StockLot) : Nat :=
  match ups.find? fun u => u.1.id = lot.id with
  | some u => u.2
  | none => lot.remaining

theorem fifoWalk_finalOf : ∀ (es : List StockLot) (left : Nat),
    (es.map StockLot.id).Nodup → ∀ (k : Nat) (hk : k < es.length),
    finalOf (fifoWalk es left).1 (es.get ⟨k, hk⟩) =
      (es.get ⟨k, hk⟩).remaining
        - (left - ((es.take k).map StockLot.remaining).sum)
  | [], _, _, k, hk => by simp at hk
  | e :: rest, left, hnd, k, hk => by
    have hndrest : (rest.map StockLot.id).Nodup := by
      simpa using hnd.of_cons
    have hid : e.id ∉ rest.map StockLot.id := by
      have := hnd; simp only [List.map_cons, List.nodup_cons] at this
      exact this.1
    by_cases h0 : left = 0
    · simp [fifoWalk, h0, finalOf]
    · by_cases hr : e.remaining = 0
      · cases k with
        | zero =>
          have hfind :
              ((fifoWalk rest left).1.find? fun u => u.1.id = e.id) = none := by
            apply List.find?_eq_none.2
            intro u hu
            have hmem : u.1 ∈ rest :=
              (fifoWalk_fst_sublist rest left).mem (List.mem_map_of_mem Prod.fst hu)
            simp only [decide_eq_true_eq]
            intro hcontra
            exact hid (hcontra ▸ List.mem_map_of_mem StockLot.id hmem)
          simp [fifoWalk, h0, hr, finalOf, hfind]
        | succ k =>
          have ih := fifoWalk_finalOf rest left hndrest k (by simpa using hk)
          simpa [fifoWalk, h0, hr] using ih
      · cases k with
        | zero =>
          have hpos :
              ((fifoWalk (e :: rest) left).1.find? fun u => u.1.id = e.id)
                = some (e, e.remaining - min e.remaining left) := by
            simp only [fifoWalk, if_neg h0, if_neg hr]
            exact List.find?_cons_of_pos _ (by simp)
          simp only [finalOf, List.get_eq_getElem, List.getElem_cons_zero, hpos,
            List.take_zero, List.map_nil, List.sum_nil]
          omega
        | succ k =>
          have hk' : k < rest.length := by simpa using hk
          have hget : rest.get ⟨k, hk'⟩ ∈ rest := List.get_mem rest k hk'
          have hne : ¬ (e.id = (rest.get ⟨k, hk'⟩).id) := by
            intro hcontra
            exact hid (hcontra ▸ List.mem_map_of_mem StockLot.id hget)
          have ih := fifoWalk_finalOf rest (left - min e.remaining left) hndrest k hk'
          have hskip :
              ((fifoWalk (e :: rest) left).1.find?
                  fun u => u.1.id = (rest.get ⟨k, hk'⟩).id)
                = ((fifoWalk rest (left - min e.remaining left)).1.find?
                    fun u => u.1.id = (rest.get ⟨k, hk'⟩).id) := by
            simp only [fifoWalk, if_neg h0, if_neg hr]
            exact List.find?_cons_of_neg _ (by simpa using hne)
          simp only [finalOf] at ih ⊢
          simp only [List.get_eq_getElem] at hskip ih ⊢
          simp only [List.getElem_cons_succ, hskip, List.take_succ_cons,
            List.map_cons, List.sum_cons, ih]
          omega

/-! ### Lemmas about persisting the recorded updates -/

theorem updateRemaining_map_id (stock : List StockLot) (i r : Nat) :
    (updateRemaining stock i r).map StockLot.id = stock.map StockLot.id := by
  unfold updateRemaining
  rw [List.map_map]
  apply List.map_congr_left
  intro lot _
  by_cases h : lot.id = i <;> simp [h]

theorem applyUpdates_map_id : ∀ (ups : List (StockLot × Nat)) (stock : List StockLot),
    (applyUpdates stock ups).map StockLot.id = stock.map StockLot.id
  | [], stock => rfl
  | u :: ups', stock => by
    have h := applyUpdates_map_id ups' (updateRemaining stock u.1.id u.2)
    simpa [applyUpdates, updateRemaining_map_id] using h

theorem mem_updateRemaining_of_ne {stock : List StockLot} {i r : Nat} {x : StockLot}
    (hx : x ∈ stock) (hne : x.id ≠ i) : x ∈ updateRemaining stock i r := by
  have hfix :
      (fun lot => if lot.id = i then { lot with remaining := r } else lot) x = x := by
    simp [hne]
  exact hfix ▸ List.mem_map_of_mem _ hx

theorem updateRemaining_of_not_mem (stock : List StockLot) (i r : Nat)
    (h : ∀ lot ∈ stock, lot.id ≠ i) : updateRemaining stock i r = stock := by
  unfold updateRemaining
  have : ∀ lot ∈ stock,
      (if lot.id = i then { lot with remaining := r } else lot) = id lot := by
    intro lot hlot
    simp [h lot hlot]
  rw [List.map_congr_left this, List.map_id]

theorem find?_id_updateRemaining (stock : List StockLot) (i r j : Nat) :
    ((updateRemaining stock i r).find? fun l => l.id = j)
      = (stock.find? fun l => l.id = j).map
          fun lot => if lot.id = i then { lot with remaining := r } else lot := by
  unfold updateRemaining
  rw [List.find?_map]
  have hpred : ((fun (l : StockLot) => decide (l.id = j)) ∘
      fun (lot : StockLot) => if lot.id = i then { lot with remaining := r } else lot)
        = fun (l : StockLot) => decide (l.id = j) := by
    funext lot
    by_cases h : lot.id = i <;> simp [Function.comp, h]
  rw [hpred]

theorem remainingOf_updateRemaining_ne {stock : List StockLot} {i r j : Nat}
    (hne : j ≠ i) : remainingOf (updateRemaining stock i r) j = remainingOf stock j := by
  unfold remainingOf
  rw [find?_id_updateRemaining]
  cases hfind : stock.find? fun l => l.id = j with
  | none => rfl
  | some l =>
    have hl : l.id = j := by simpa using List.find?_some hfind
    simp [hl, hne]

theorem remainingOf_updateRemaining_self {stock : List StockLot} {i r : Nat}
    {l0 : StockLot} (hex : (stock.find? fun l => l.id = i) = some l0) :
    remainingOf (updateRemaining stock i r) i = r := by
  unfold remainingOf
  rw [find?_id_updateRemaining, hex]
  have hl : l0.id = i := by simpa using List.find?_some hex
  simp [hl]

theorem remainingOf_applyUpdates :
    ∀ (ups : List (StockLot × Nat)) (stock : List StockLot),
    (ups.map fun u => u.1.id).Nodup → (∀ u ∈ ups, u.1 ∈ stock) → ∀ j,
    remainingOf (applyUpdates stock ups) j =
      (match ups.find? fun u => u.1.id = j with
       | some u => u.2
       | none => remainingOf stock j)
  | [], stock, _, _, j => rfl
  | (e, r) :: ups', stock, hnd, hmem, j => by
    have hnd' : (e.id :: ups'.map fun u => u.1.id).Nodup := by simpa using hnd
    have hndtail : (ups'.map fun u => u.1.id).Nodup := (List.nodup_cons.1 hnd').2
    have hnotin : e.id ∉ ups'.map fun u => u.1.id := (List.nodup_cons.1 hnd').1
    have hmem' : ∀ u ∈ ups', u.1 ∈ updateRemaining stock e.id r := by
      intro u hu
      refine mem_updateRemaining_of_ne (hmem u (List.mem_cons_of_mem _ hu)) ?_
      intro hcontra
      exact hnotin (hcontra ▸ List.mem_map_of_mem _ hu)
    have happly : applyUpdates stock ((e, r) :: ups')
        = applyUpdates (updateRemaining stock e.id r) ups' := rfl
    rw [happly, remainingOf_applyUpdates ups' _ hndtail hmem' j]
    by_cases hj : e.id = j
    · subst hj
      have hnone : (ups'.find? fun u => u.1.id = e.id) = none :=
        List.find?_eq_none.2 fun u hu => by
          simp only [decide_eq_true_eq]
          intro hcontra
          exact hnotin (hcontra ▸ List.mem_map_of_mem _ hu)
      have hpos : (((e, r) :: ups').find? fun u => u.1.id = e.id) = some (e, r) :=
        List.find?_cons_of_pos _ (by simp)
      rw [hnone, hpos]
      obtain ⟨l0, hl0⟩ : ∃ l0, (stock.find? fun l => l.id = e.id) = some l0 := by
        have he : e ∈ stock := hmem (e, r) (List.mem_cons_self _ _)
        have hsome : ((stock.find? fun l => l.id = e.id)).isSome :=
          List.find?_isSome.2 ⟨e, he, by simp⟩
        exact Option.isSome_iff_exists.1 hsome
      exact remainingOf_updateRemaining_self hl0
    · have hskip : (((e, r) :: ups').find? fun u => u.1.id = j)
          = ups'.find? fun u => u.1.id = j :=
        List.find?_cons_of_neg _ (by simpa using hj)
      rw [hskip]
      cases hfind : ups'.find? fun u => u.1.id = j with
      | some u => rfl
      | none => exact remainingOf_updateRemaining_ne fun hcontra => hj hcontra.symm

theorem sum_updateRemaining :
    ∀ (stock : List StockLot) (e : StockLot) (r : Nat),
    (stock.map StockLot.id).Nodup → e ∈ stock →
    ((updateRemaining stock e.id r).map StockLot.remaining).sum + e.remaining
      = (stock.map StockLot.remaining).sum + r
  | [], e, r, _, he => absurd he (List.not_mem_nil e)
  | head :: rest, e, r, hnd, he => by
    have hnd' : (head.id :: rest.map StockLot.id).Nodup := by simpa using hnd
    have hhead : head.id ∉ rest.map StockLot.id := (List.nodup_cons.1 hnd').1
    have hndrest : (rest.map StockLot.id).Nodup := (List.nodup_cons.1 hnd').2
    rcases List.mem_cons.1 he with rfl | hmem
    · have hrest : updateRemaining rest e.id r = rest :=
        updateRemaining_of_not_mem rest e.id r fun lot hlot hcontra =>
          hhead (hcontra ▸ List.mem_map_of_mem StockLot.id hlot)
      have hrest' : rest.map
          (fun lot => if lot.id = e.id then { lot with remaining := r } else lot)
            = rest := hrest
      simp only [updateRemaining, List.map_cons, List.sum_cons, hrest']
      rw [if_pos (trivial : True)]
      show r + (rest.map StockLot.remaining).sum + e.remaining
          = e.remaining + (rest.map StockLot.remaining).sum + r
      omega
    · have hne : head.id ≠ e.id := fun hcontra =>
        hhead (hcontra ▸ List.mem_map_of_mem StockLot.id hmem)
      have ih := sum_updateRemaining rest e r hndrest hmem
      simp only [updateRemaining, List.map_cons, if_neg hne, List.sum_cons]
      simp only [updateRemaining] at ih
      omega

theorem sum_applyUpdates :
    ∀ (ups : List (StockLot × Nat)) (stock : List StockLot),
    (stock.map StockLot.id).Nodup → (ups.map fun u => u.1.id).Nodup →
    (∀ u ∈ ups, u.1 ∈ stock ∧ u.2 ≤ u.1.remaining) →
    ((applyUpdates stock ups).map StockLot.remaining).sum
      + (ups.map fun u => u.1.remaining - u.2).sum
      = (stock.map StockLot.remaining).sum
  | [], stock, _, _, _ => by simp [applyUpdates]
  | (e, r) :: ups', stock, hstock, hups, h => by
    have hnd' : (e.id :: ups'.map fun u => u.1.id).Nodup := by simpa using hups
    have hndtail : (ups'.map fun u => u.1.id).Nodup := (List.nodup_cons.1 hnd').2
    have hnotin : e.id ∉ ups'.map fun u => u.1.id := (List.nodup_cons.1 hnd').1
    have he : e ∈ stock := (h (e, r) (List.mem_cons_self _ _)).1
    have hr : r ≤ e.remaining := (h (e, r) (List.mem_cons_self _ _)).2
    have hstock' : ((updateRemaining stock e.id r).map StockLot.id).Nodup := by
      rw [updateRemaining_map_id]; exact hstock
    have hmem' : ∀ u ∈ ups', u.1 ∈ updateRemaining stock e.id r ∧ u.2 ≤ u.1.remaining := by
      intro u hu
      refine ⟨mem_updateRemaining_of_ne (h u (List.mem_cons_of_mem _ hu)).1 ?_,
        (h u (List.mem_cons_of_mem _ hu)).2⟩
      intro hcontra
      exact hnotin (hcontra ▸ List.mem_map_of_mem _ hu)
    have ih := sum_applyUpdates ups' (updateRemaining stock e.id r) hstock' hndtail hmem'
    have hstep := sum_updateRemaining stock e r hstock he
    have happly : applyUpdates stock ((e, r) :: ups')
        = applyUpdates (updateRemaining stock e.id r) ups' := rfl
    rw [happly]
    simp only [List.map_cons, List.sum_cons]
    omega

/-- A lot evolved by depletion only: every column unchanged except `remaining`,
which may only have decreased. -/
def LotShrinks (a b : StockLot) : Prop :=
  a.id = b.id ∧ a.fruit = b.fruit ∧ a.quantity = b.quantity ∧
    a.cost_price = b.cost_price ∧ a.date = b.date ∧ a.remaining ≤ b.remaining

theorem lotShrinks_refl (a : StockLot) : LotShrinks a a :=
  ⟨rfl, rfl, rfl, rfl, rfl, le_refl _⟩

theorem lotShrinks_trans {a b c : StockLot} (h1 : LotShrinks a b)
    (h2 : LotShrinks b c) : LotShrinks a c := by
  obtain ⟨i1, f1, q1, c1, d1, r1⟩ := h1
  obtain ⟨i2, f2, q2, c2, d2, r2⟩ := h2
  exact ⟨i1.trans i2, f1.trans f2, q1.trans q2, c1.trans c2, d1.trans d2,
    r1.trans r2⟩

theorem forall₂_lotShrinks_trans {l1 l2 l3 : List StockLot}
    (h1 : List.Forall₂ LotShrinks l1 l2) (h2 : List.Forall₂ LotShrinks l2 l3) :
    List.Forall₂ LotShrinks l1 l3 := by
  rw [List.forall₂_iff_get] at h1 h2 ⊢
  obtain ⟨hl1, hp1⟩ := h1
  obtain ⟨hl2, hp2⟩ := h2
  refine ⟨hl1.trans hl2, fun i hi1 hi3 => ?_⟩
  exact lotShrinks_trans (hp1 i hi1 (hl1 ▸ hi1)) (hp2 i (hl1 ▸ hi1) hi3)

theorem forall₂_updateRemaining (stock : List StockLot) (e : StockLot) (r : Nat)
    (hnd : (stock.map StockLot.id).Nodup) (he : e ∈ stock)
    (hr : r ≤ e.remaining) :
    List.Forall₂ LotShrinks (updateRemaining stock e.id r) stock := by
  rw [List.forall₂_iff_get]
  constructor
  · simp [updateRemaining]
  · intro i h1 h2
    have hmemi : stock.get ⟨i, h2⟩ ∈ stock := List.get_mem stock i h2
    have hget : (updateRemaining stock e.id r).get ⟨i, h1⟩
        = (fun lot => if lot.id = e.id then { lot with remaining := r } else lot)
            (stock.get ⟨i, h2⟩) := by
      simp [updateRemaining]
    rw [hget]
    beta_reduce
    by_cases h : (stock.get ⟨i, h2⟩).id = e.id
    · have heq : stock.get ⟨i, h2⟩ = e := List.inj_on_of_nodup_map hnd hmemi he h
      rw [if_pos h, heq]
      exact ⟨rfl, rfl, rfl, rfl, rfl, hr⟩
    · rw [if_neg h]
      exact lotShrinks_refl _

theorem forall₂_applyUpdates :
    ∀ (ups : List (StockLot × Nat)) (stock : List StockLot),
    (stock.map StockLot.id).Nodup → (ups.map fun u => u.1.id).Nodup →
    (∀ u ∈ ups, u.1 ∈ stock ∧ u.2 ≤ u.1.remaining) →
    List.Forall₂ LotShrinks (applyUpdates stock ups) stock
  | [], stock, _, _, _ => List.forall₂_same.2 fun x _ => lotShrinks_refl x
  | (e, r) :: ups', stock, hstock, hups, h => by
    have hnd' : (e.id :: ups'.map fun u => u.1.id).Nodup := by simpa using hups
    have hndtail : (ups'.map fun u => u.1.id).Nodup := (List.nodup_cons.1 hnd').2
    have hnotin : e.id ∉ ups'.map fun u => u.1.id := (List.nodup_cons.1 hnd').1
    have he : e ∈ stock := (h (e, r) (List.mem_cons_self _ _)).1
    have hr : r ≤ e.remaining := (h (e, r) (List.mem_cons_self _ _)).2
    have hstock' : ((updateRemaining stock e.id r).map StockLot.id).Nodup := by
      rw [updateRemaining_map_id]; exact hstock
    have hmem' : ∀ u ∈ ups',
        u.1 ∈ updateRemaining stock e.id r ∧ u.2 ≤ u.1.remaining := by
      intro u hu
      refine ⟨mem_updateRemaining_of_ne (h u (List.mem_cons_of_mem _ hu)).1 ?_,
        (h u (List.mem_cons_of_mem _ hu)).2⟩
      intro hcontra
      exact hnotin (hcontra ▸ List.mem_map_of_mem _ hu)
    have ih := forall₂_applyUpdates ups' (updateRemaining stock e.id r)
      hstock' hndtail hmem'
    have hstep := forall₂_updateRemaining stock e r hstock he hr
    exact forall₂_lotShrinks_trans ih hstep

theorem filter_fruit_updateRemaining (stock : List StockLot) (i r : Nat)
    (fruit : String) :
    (updateRemaining stock i r).filter (fun l => l.fruit = fruit)
      = updateRemaining (stock.filter fun l => l.fruit = fruit) i r := by
  unfold updateRemaining
  rw [List.filter_map]
  have hpred : ((fun (l : StockLot) => decide (l.fruit = fruit)) ∘
      fun (lot : StockLot) => if lot.id = i then { lot with remaining := r } else lot)
        = fun (l : StockLot) => decide (l.fruit = fruit) := by
    funext lot
    by_cases h : lot.id = i <;> simp [Function.comp, h]
  rw [hpred]

theorem filter_fruit_applyUpdates :
    ∀ (ups : List (StockLot × Nat)) (stock : List StockLot) (fruit : String),
    (applyUpdates stock ups).filter (fun l => l.fruit = fruit)
      = applyUpdates (stock.filter fun l => l.fruit = fruit) ups
  | [], stock, fruit => rfl
  | (e, r) :: ups', stock, fruit => by
    have ih := filter_fruit_applyUpdates ups' (updateRemaining stock e.id r) fruit
    have happly : applyUpdates stock ((e, r) :: ups')
        = applyUpdates (updateRemaining stock e.id r) ups' := rfl
    rw [happly, ih, filter_fruit_updateRemaining]
    rfl

/-! ### Order facts for the FIFO sort key -/

theorem fifoLe_trans : ∀ (a b c : StockLot),
    fifoLe a b = true → fifoLe b c = true → fifoLe a c = true := by
  intro a b c hab hbc
  simp only [fifoLe] at *
  split_ifs at * <;> simp_all <;> omega

theorem fifoLe_total : ∀ (a b : StockLot), (fifoLe a b || fifoLe b a) = true := by
  intro a b
  simp only [fifoLe]
  split_ifs <;> simp_all <;> omega

/-! ### Plumbing for `reduce_stock_fifo` -/

theorem remainingOf_of_mem {stock : List StockLot} {e : StockLot}
    (hnd : (stock.map StockLot.id).Nodup) (he : e ∈ stock) :
    remainingOf stock e.id = e.remaining := by
  unfold remainingOf
  obtain ⟨l0, hl0⟩ : ∃ l0, (stock.find? fun l => l.id = e.id) = some l0 := by
    have hsome : ((stock.find? fun l => l.id = e.id)).isSome :=
      List.find?_isSome.2 ⟨e, he, by simp⟩
    exact Option.isSome_iff_exists.1 hsome
  rw [hl0]
  have hid : l0.id = e.id := by simpa using List.find?_some hl0
  have hl0mem : l0 ∈ stock := List.mem_of_find?_eq_some hl0
  rw [List.inj_on_of_nodup_map hnd hl0mem he hid]

theorem mem_sortedLiveLots {stock : List StockLot} {fruit : String} {x : StockLot}
    (hx : x ∈ sortedLiveLots stock fruit) :
    x ∈ stock ∧ x.fruit = fruit ∧ 0 < x.remaining := by
  have hlive : x ∈ liveLots stock fruit := List.mem_mergeSort.1 hx
  have hsplit := List.mem_filter.1 hlive
  have hb := hsplit.2
  simp only [Bool.and_eq_true, decide_eq_true_eq] at hb
  exact ⟨hsplit.1, hb.1, by omega⟩

theorem nodup_id_sortedLiveLots {stock : List StockLot} {fruit : String}
    (hids : (stock.map StockLot.id).Nodup) :
    ((sortedLiveLots stock fruit).map StockLot.id).Nodup := by
  have h1 : ((liveLots stock fruit).map StockLot.id).Nodup :=
    ((List.filter_sublist stock).map StockLot.id).nodup hids
  exact (((List.mergeSort_perm (liveLots stock fruit) fifoLe).map
    StockLot.id).nodup_iff).2 h1

theorem fifoWalk_id_nodup {stock : List StockLot} {fruit : String} {n : Nat}
    (hids : (stock.map StockLot.id).Nodup) :
    (((fifoWalk (sortedLiveLots stock fruit) n).1.map fun u => u.1.id)).Nodup := by
  have h1 : ((fifoWalk (sortedLiveLots stock fruit) n).1.map fun u => u.1.id)
      = ((fifoWalk (sortedLiveLots stock fruit) n).1.map Prod.fst).map
          StockLot.id := by
    rw [List.map_map]
    rfl
  rw [h1]
  exact ((fifoWalk_fst_sublist _ n).map StockLot.id).nodup
    (nodup_id_sortedLiveLots hids)

theorem fifoWalk_mem_stock {stock : List StockLot} {fruit : String} {n : Nat} :
    ∀ u ∈ (fifoWalk (sortedLiveLots stock fruit) n).1,
      u.1 ∈ stock ∧ u.1.fruit = fruit ∧ u.2 ≤ u.1.remaining := by
  intro u hu
  have hfst : u.1 ∈ sortedLiveLots stock fruit :=
    (fifoWalk_fst_sublist _ n).subset (List.mem_map_of_mem Prod.fst hu)
  have hprops := mem_sortedLiveLots hfst
  exact ⟨hprops.1, hprops.2.1, fifoWalk_snd_le_fst _ n u hu⟩

theorem reduce_ok_cases {stock : List StockLot} {fruit : String} {n : Nat}
    (hok : (reduce_stock_fifo stock fruit n).2 = FifoResult.ok) :
    (sortedLiveLots stock fruit).isEmpty = false ∧
    (fifoWalk (sortedLiveLots stock fruit) n).2 = 0 ∧
    (reduce_stock_fifo stock fruit n).1
      = applyUpdates stock (fifoWalk (sortedLiveLots stock fruit) n).1 := by
  by_cases hemp : (sortedLiveLots stock fruit).isEmpty
  · simp [reduce_stock_fifo, hemp] at hok
  · have hemp' : (sortedLiveLots stock fruit).isEmpty = false := by
      simpa using hemp
    by_cases hpos : 0 < (fifoWalk (sortedLiveLots stock fruit) n).2
    · simp [reduce_stock_fifo, hemp', hpos] at hok
    · exact ⟨hemp', by omega, by simp [reduce_stock_fifo, hemp', hpos]⟩

/-- Claim C2: after a successful FIFO reduction of `n` boxes of a fruit, the sum
of `remaining` over that fruit's lots has decreased by exactly `n`; the
candidate lots are walked in `(date, id)`-ascending order, with the lot at
position `k` of that order losing exactly
`min(remaining, n - stock already taken from earlier lots)` boxes; and every lot
of the table keeps all its columns except a (never negative, never increased)
`remaining`. -/
theorem c2_fifo_depletion (stock : List StockLot) (fruit : String) (n : Nat)
    (hids : (stock.map StockLot.id).Nodup)
    (hok : (reduce_stock_fifo stock fruit n).2 = FifoResult.ok) :
    fruitRemaining (reduce_stock_fifo stock fruit n).1 fruit + n
        = fruitRemaining stock fruit
      ∧ List.Pairwise (fun a b => fifoLe a b = true) (sortedLiveLots stock fruit)
      ∧ (∀ (k : Nat) (hk : k < (sortedLiveLots stock fruit).length),
          remainingOf (reduce_stock_fifo stock fruit n).1
              ((sortedLiveLots stock fruit).get ⟨k, hk⟩).id
            = ((sortedLiveLots stock fruit).get ⟨k, hk⟩).remaining
              - min ((sortedLiveLots stock fruit).get ⟨k, hk⟩).remaining
                  (n - (((sortedLiveLots stock fruit).take k).map
                      StockLot.remaining).sum))
      ∧ List.Forall₂ LotShrinks (reduce_stock_fifo stock fruit n).1 stock := by
  obtain ⟨hemp, hleft, hfst⟩ := reduce_ok_cases hok
  have hupsnd := @fifoWalk_id_nodup stock fruit n hids
  have hupsmem := @fifoWalk_mem_stock stock fruit n
  refine ⟨?_, ?_, ?_, ?_⟩
  · -- the fruit's total drops by exactly n
    unfold fruitRemaining
    rw [hfst, filter_fruit_applyUpdates]
    have hndf : ((stock.filter fun l => l.fruit = fruit).map StockLot.id).Nodup :=
      ((List.filter_sublist stock).map StockLot.id).nodup hids
    have hmemf : ∀ u ∈ (fifoWalk (sortedLiveLots stock fruit) n).1,
        u.1 ∈ (stock.filter fun l => l.fruit = fruit) ∧ u.2 ≤ u.1.remaining := by
      intro u hu
      obtain ⟨h1, h2, h3⟩ := hupsmem u hu
      exact ⟨List.mem_filter.2 ⟨h1, by simpa using h2⟩, h3⟩
    have hsum := sum_applyUpdates (fifoWalk (sortedLiveLots stock fruit) n).1
      (stock.filter fun l => l.fruit = fruit) hndf hupsnd hmemf
    have hcons := fifoWalk_consumed (sortedLiveLots stock fruit) n
    omega
  · exact List.sorted_mergeSort fifoLe_trans fifoLe_total (liveLots stock fruit)
  · intro k hk
    have hesnd := @nodup_id_sortedLiveLots stock fruit hids
    have hmem' : ∀ u ∈ (fifoWalk (sortedLiveLots stock fruit) n).1, u.1 ∈ stock :=
      fun u hu => (hupsmem u hu).1
    have hA2 := remainingOf_applyUpdates (fifoWalk (sortedLiveLots stock fruit) n).1
      stock hupsnd hmem' ((sortedLiveLots stock fruit).get ⟨k, hk⟩).id
    have hW := fifoWalk_finalOf (sortedLiveLots stock fruit) n hesnd k hk
    unfold finalOf at hW
    rw [hfst, hA2]
    cases hfind : (fifoWalk (sortedLiveLots stock fruit) n).1.find?
        fun u => u.1.id = ((sortedLiveLots stock fruit).get ⟨k, hk⟩).id with
    | some u =>
      rw [hfind] at hW
      simp only at hW ⊢
      omega
    | none =>
      rw [hfind] at hW
      simp only at hW ⊢
      have hself : remainingOf stock
          ((sortedLiveLots stock fruit).get ⟨k, hk⟩).id
            = ((sortedLiveLots stock fruit).get ⟨k, hk⟩).remaining :=
        remainingOf_of_mem hids
          (mem_sortedLiveLots (List.get_mem _ k hk)).1
      rw [hself]
      omega
  · rw [hfst]
    exact forall₂_applyUpdates _ stock hids hupsnd
      fun u hu => ⟨(hupsmem u hu).1, (hupsmem u hu).2.2⟩

/-! ### Weighted-average cost -/

theorem safe_divide_eq_div (a b : ℚ) : safe_divide a b = a / b := by
  unfold safe_divide
  by_cases h : b = 0 <;> simp [h]

theorem return_avg_cost_eq (stock : List StockLot) (fruit : String) :
    return_avg_cost stock fruit = compute_weighted_avg_cost stock fruit none := by
  unfold return_avg_cost compute_weighted_avg_cost eligibleLots
  simp only [Bool.and_true]
  by_cases hemp : (stock.filter fun l => decide (l.fruit = fruit)) = []
  · simp [hemp]
  · have hne : ((stock.filter fun l => decide (l.fruit = fruit)).isEmpty) = false := by
      simpa [List.isEmpty_iff] using hemp
    rw [hne]
    simp only [Bool.false_eq_true, if_false]
    by_cases hpos :
        0 < (((stock.filter fun l => decide (l.fruit = fruit)).map
            fun l => (l.quantity : ℚ)).sum)
    · rw [if_pos hpos]
    · rw [if_neg hpos]
      have h0 : (((stock.filter fun l => decide (l.fruit = fruit)).map
          fun l => (l.quantity : ℚ)).sum) = 0 := by
        have hnonneg : 0 ≤ (((stock.filter fun l => decide (l.fruit = fruit)).map
            fun l => (l.quantity : ℚ)).sum) :=
          List.sum_nonneg fun x hx => by
            obtain ⟨l, _, rfl⟩ := List.mem_map.1 hx
            positivity
        linarith [not_lt.1 hpos]
      rw [h0]
      simp [safe_divide]

/-- Claim C1: evaluation of `reduce_stock_fifo` at a failing input.  With a
single lot of 5 APPLE boxes, asking for 7 boxes returns the shortfall failure
("Short by 2"), yet the walked lot's `remaining` has already been persisted as
0: the error path is not free of partial effects, contradicting the
specification's all-or-nothing requirement. -/
theorem c1_partial_effect_on_shortfall :
    reduce_stock_fifo [⟨1, "APPLE", 5, 500, 1, 5⟩] "APPLE" 7
      = ([⟨1, "APPLE", 5, 500, 1, 0⟩], FifoResult.shortBy 2) := by
  have hsorted : sortedLiveLots [⟨1, "APPLE", 5, 500, 1, 5⟩] "APPLE"
      = liveLots [⟨1, "APPLE", 5, 500, 1, 5⟩] "APPLE" :=
    List.mergeSort_of_sorted (by decide)
  unfold reduce_stock_fifo
  rw [hsorted]
  decide

/-- Claim C3: `compute_weighted_avg_cost` returns
`Σ(quantity·cost_price) / Σ(quantity)` over the fruit's lots with intake date
`≤` the optional as-of date (all lots when unspecified), weighted by the intake
`quantity`; it returns 0 when no such lot exists; and it is invariant under
permuting the stock table (the order lots were added). -/
theorem c3_weighted_avg_cost (stock stock' : List StockLot) (fruit : String)
    (up_to_date : Option Nat) (hperm : stock.Perm stock') :
    compute_weighted_avg_cost stock fruit up_to_date
        = (((eligibleLots stock fruit up_to_date).map
              fun l => (l.quantity : ℚ) * l.cost_price).sum)
          / (((eligibleLots stock fruit up_to_date).map
              fun l => (l.quantity : ℚ)).sum)
      ∧ (eligibleLots stock fruit up_to_date = [] →
          compute_weighted_avg_cost stock fruit up_to_date = 0)
      ∧ compute_weighted_avg_cost stock fruit up_to_date
          = compute_weighted_avg_cost stock' fruit up_to_date := by
  refine ⟨?_, ?_, ?_⟩
  · unfold compute_weighted_avg_cost
    by_cases hemp : (eligibleLots stock fruit up_to_date).isEmpty
    · have hnil : eligibleLots stock fruit up_to_date = [] :=
        List.isEmpty_iff.1 hemp
      simp [hemp, hnil]
    · rw [if_neg hemp, safe_divide_eq_div]
  · intro h
    simp [compute_weighted_avg_cost, h]
  · have hpe : (eligibleLots stock fruit up_to_date).Perm
        (eligibleLots stock' fruit up_to_date) := hperm.filter _
    unfold compute_weighted_avg_cost
    have hemp : (eligibleLots stock fruit up_to_date).isEmpty
        = (eligibleLots stock' fruit up_to_date).isEmpty := by
      by_cases h : (eligibleLots stock fruit up_to_date) = []
      · have h' : (eligibleLots stock' fruit up_to_date) = [] :=
          List.eq_nil_of_length_eq_zero (hpe.length_eq ▸ (h ▸ rfl))
        rw [h, h']
      · have h' : (eligibleLots stock' fruit up_to_date) ≠ [] := by
          intro hcontra
          exact h (List.eq_nil_of_length_eq_zero
            (hpe.length_eq.symm ▸ (hcontra ▸ rfl)))
        have e1 : (eligibleLots stock fruit up_to_date).isEmpty = false := by
          simpa [List.isEmpty_iff] using h
        have e2 : (eligibleLots stock' fruit up_to_date).isEmpty = false := by
          simpa [List.isEmpty_iff] using h'
        rw [e1, e2]
    rw [hemp, (hpe.map fun l => (l.quantity : ℚ) * l.cost_price).sum_eq,
      (hpe.map fun l => (l.quantity : ℚ)).sum_eq]

/-- Claim C4: an applied sale edit stores
`total_price = boxes · price_per_box` and
`box_deposit_collected = boxes · box_deposit_per_box` recomputed from the
requested values; the derived fields submitted with the edit are ignored; and
no stock lot (nor any return/payment/vendor row) is modified. -/
theorem c4_update_sale (s : AppState) (sale_id : Nat) (u : SaleUpdate)
    (t d : Option ℚ) :
    (∀ sale' ∈ (update_sale_record s sale_id u).1.sales, sale'.id = sale_id →
        sale'.total_price = (u.boxes : ℚ) * u.price_per_box
          ∧ sale'.box_deposit_collected = (u.boxes : ℚ) * u.box_deposit_per_box
          ∧ sale'.boxes = u.boxes ∧ sale'.price_per_box = u.price_per_box
          ∧ sale'.box_deposit_per_box = u.box_deposit_per_box
          ∧ sale'.fruit = u.fruit ∧ sale'.dt = u.dt ∧ sale'.note = u.note)
      ∧ update_sale_record s sale_id
            { u with total_price := t, box_deposit_collected := d }
          = update_sale_record s sale_id u
      ∧ (update_sale_record s sale_id u).1.stock = s.stock
      ∧ (update_sale_record s sale_id u).1.returns = s.returns
      ∧ (update_sale_record s sale_id u).1.payments = s.payments
      ∧ (update_sale_record s sale_id u).1.vendors = s.vendors := by
  refine ⟨?_, rfl, rfl, rfl, rfl, rfl⟩
  intro sale' hmem hid
  obtain ⟨sale, hsale, heq⟩ := List.mem_map.1 hmem
  by_cases hcase : sale.id = sale_id
  · rw [if_pos hcase] at heq
    subst heq
    exact ⟨rfl, rfl, rfl, rfl, rfl, rfl, rfl, rfl⟩
  · rw [if_neg hcase] at heq
    subst heq
    exact absurd hid hcase

/-- Claim C7: a valid return persists a return row with
`box_deposit_refunded = boxes_returned · box_deposit_per_box` and then creates
one new stock lot with `quantity = remaining = boxes_returned` and cost price
equal to the weighted average cost of the fruit computed over the stock as it
was before the new lot is added. -/
theorem c7_record_return (s : AppState) (dt vid : Nat) (fruit : String)
    (b : Int) (dep : ℚ) (note : String) (hb : 0 < b) (hdep : 0 ≤ dep) :
    record_return s dt vid fruit b dep note
      = ({ s with
            returns := s.returns ++
              [⟨s.nextReturnId, dt, vid, fruit, b.toNat, (b : ℚ) * dep, note⟩],
            stock := s.stock ++
              [⟨s.nextStockId, fruit, b.toNat,
                compute_weighted_avg_cost s.stock fruit none, dt, b.toNat⟩],
            nextReturnId := s.nextReturnId + 1,
            nextStockId := s.nextStockId + 1 }, true) := by
  unfold record_return
  rw [if_neg (by omega), if_neg (not_lt.2 hdep), return_avg_cost_eq]

/-- Claim C9, counterexample: `record_return` stores the fruit string exactly as
passed, so a lot created by a return with input "apple" carries the key
"apple", not the normalized uppercase key "APPLE" that the claim promises for
every lot. -/
theorem c9_counterexample :
    ((record_return initState 1 1 "apple" 2 0 "").1.stock.map StockLot.fruit
        = ["apple"])
      ∧ "apple" ≠ pyStrip (pyUpper "apple") := by
  constructor
  · decide
  · decide

/-- Claim C9 as amended: lots created by `add_stock` store the normalized
uppercase key `upper∘strip(input)`, while lots created by `record_return` store
the fruit string verbatim as passed (that operation performs no
normalization). -/
theorem c9_fruit_keys (s : AppState) (fruit1 : String) (boxes : Int) (cost : ℚ)
    (dt1 dt2 vid : Nat) (fruit2 : String) (b : Int) (dep : ℚ) (note : String)
    (h1 : pyStrip fruit1 ≠ "") (h2 : 0 < boxes) (h3 : 0 ≤ cost)
    (h4 : 0 < b) (h5 : 0 ≤ dep) :
    (add_stock s fruit1 boxes cost dt1).1.stock.map StockLot.fruit
        = s.stock.map StockLot.fruit ++ [pyStrip (pyUpper fruit1)]
      ∧ (record_return s dt2 vid fruit2 b dep note).1.stock.map StockLot.fruit
        = s.stock.map StockLot.fruit ++ [fruit2] := by
  constructor
  · unfold add_stock
    rw [if_neg h1, if_neg (not_le.2 h2), if_neg (not_lt.2 h3)]
    simp
  · unfold record_return
    rw [if_neg (not_le.2 h4), if_neg (not_lt.2 h5)]
    simp

/-- Claim C10: deleting a sale removes exactly the sales rows carrying that id
and changes nothing else: the stock, returns, payments and vendors tables are
untouched, and every other sales row survives. -/
theorem c10_delete_sale (s : AppState) (sale_id : Nat) :
    (delete_sale_record s sale_id).1.stock = s.stock
      ∧ (delete_sale_record s sale_id).1.returns = s.returns
      ∧ (delete_sale_record s sale_id).1.payments = s.payments
      ∧ (delete_sale_record s sale_id).1.vendors = s.vendors
      ∧ (∀ sale ∈ s.sales, sale.id ≠ sale_id →
          sale ∈ (delete_sale_record s sale_id).1.sales)
      ∧ (∀ sale ∈ (delete_sale_record s sale_id).1.sales,
          sale ∈ s.sales ∧ sale.id ≠ sale_id)
      ∧ (delete_sale_record s sale_id).2 = true := by
  refine ⟨rfl, rfl, rfl, rfl, ?_, ?_, rfl⟩
  · intro sale h hne
    exact List.mem_filter.2 ⟨h, by simpa using hne⟩
  · intro sale h
    have hm := List.mem_filter.1 h
    exact ⟨hm.1, by simpa using hm.2⟩

/-! ### Stock invariants across operations -/

theorem reduce_fst_map_id (stock : List StockLot) (fruit : String) (n : Nat) :
    (reduce_stock_fifo stock fruit n).1.map StockLot.id = stock.map StockLot.id := by
  unfold reduce_stock_fifo
  by_cases hemp : (sortedLiveLots stock fruit).isEmpty
  · rw [if_pos hemp]
  · rw [if_neg hemp]
    exact applyUpdates_map_id _ _

theorem reduce_fst_forall₂ (stock : List StockLot) (fruit : String) (n : Nat)
    (hids : (stock.map StockLot.id).Nodup) :
    List.Forall₂ LotShrinks (reduce_stock_fifo stock fruit n).1 stock := by
  unfold reduce_stock_fifo
  by_cases hemp : (sortedLiveLots stock fruit).isEmpty
  · rw [if_pos hemp]
    exact List.forall₂_same.2 fun x _ => lotShrinks_refl x
  · rw [if_neg hemp]
    exact forall₂_applyUpdates _ stock hids (fifoWalk_id_nodup hids)
      fun u hu => ⟨(fifoWalk_mem_stock u hu).1, (fifoWalk_mem_stock u hu).2.2⟩

theorem forall₂_mem_left {α β : Type} {R : α → β → Prop} {l1 : List α}
    {l2 : List β} (h : List.Forall₂ R l1 l2) : ∀ a ∈ l1, ∃ b ∈ l2, R a b := by
  induction h with
  | nil => intro a ha; cases ha
  | cons hR hF ih =>
    intro a ha
    rcases List.mem_cons.1 ha with rfl | h'
    · exact ⟨_, List.mem_cons_self _ _, hR⟩
    · obtain ⟨b, hb, hRb⟩ := ih a h'
      exact ⟨b, List.mem_cons_of_mem _ hb, hRb⟩

/-- Well-formedness of the stock table: distinct autoincrement ids, ids below
the next counter value, and the `remaining ≤ quantity` invariant. -/
def StockWF (s : AppState) : Prop :=
  (s.stock.map StockLot.id).Nodup
    ∧ (∀ lot ∈ s.stock, lot.id < s.nextStockId)
    ∧ (∀ lot ∈ s.stock, lot.remaining ≤ lot.quantity)

theorem stockWF_initState : StockWF initState :=
  ⟨List.nodup_nil, by simp [initState], by simp [initState]⟩

theorem nodup_id_append (stock : List StockLot) (lot : StockLot)
    (hnd : (stock.map StockLot.id).Nodup) (hbound : ∀ l ∈ stock, l.id < lot.id) :
    ((stock ++ [lot]).map StockLot.id).Nodup := by
  rw [List.map_append]
  refine List.Nodup.append hnd (List.nodup_singleton _) ?_
  intro a ha hb
  obtain ⟨l, hl, rfl⟩ := List.mem_map.1 ha
  have hb' : l.id = lot.id := by simpa using hb
  have := hbound l hl
  omega

theorem stockWF_applyOp (s : AppState) (op : Op) (hwf : StockWF s) :
    StockWF (applyOp s op) := by
  obtain ⟨hnd, hbound, hinv⟩ := hwf
  cases op with
  | add fruit boxes cost dt =>
    show StockWF (add_stock s fruit boxes cost dt).1
    unfold add_stock
    split_ifs with h1 h2 h3
    · exact ⟨hnd, hbound, hinv⟩
    · exact ⟨hnd, hbound, hinv⟩
    · exact ⟨hnd, hbound, hinv⟩
    · refine ⟨nodup_id_append _ _ hnd fun l hl => hbound l hl, ?_, ?_⟩
      · intro lot hlot
        rcases List.mem_append.1 hlot with h | h
        · exact Nat.lt_trans (hbound lot h) (Nat.lt_succ_self _)
        · have : lot = ⟨s.nextStockId, pyStrip (pyUpper fruit), boxes.toNat,
              cost, dt, boxes.toNat⟩ := by simpa using h
          subst this
          exact Nat.lt_succ_self _
      · intro lot hlot
        rcases List.mem_append.1 hlot with h | h
        · exact hinv lot h
        · have : lot = ⟨s.nextStockId, pyStrip (pyUpper fruit), boxes.toNat,
              cost, dt, boxes.toNat⟩ := by simpa using h
          subst this
          exact le_refl _
  | vend name contact =>
    show StockWF (add_vendor s name contact).1
    unfold add_vendor
    split_ifs <;> exact ⟨hnd, hbound, hinv⟩
  | sell dt vid fruit boxes price dep note =>
    show StockWF (sell_to_vendor s dt vid fruit boxes price dep note).1
    unfold sell_to_vendor
    split_ifs with h1 h2 h3
    · exact ⟨hnd, hbound, hinv⟩
    · exact ⟨hnd, hbound, hinv⟩
    · exact ⟨hnd, hbound, hinv⟩
    · have hmap := reduce_fst_map_id s.stock fruit boxes.toNat
      have hfor := reduce_fst_forall₂ s.stock fruit boxes.toNat hnd
      rcases hred : reduce_stock_fifo s.stock fruit boxes.toNat with ⟨stock', res⟩
      rw [hred] at hmap hfor
      have hwf' : (stock'.map StockLot.id).Nodup
          ∧ (∀ lot ∈ stock', lot.id < s.nextStockId)
          ∧ (∀ lot ∈ stock', lot.remaining ≤ lot.quantity) := by
        refine ⟨hmap ▸ hnd, ?_, ?_⟩
        · intro lot hlot
          obtain ⟨lot₀, hlot₀, hR⟩ := forall₂_mem_left hfor lot hlot
          exact hR.1 ▸ hbound lot₀ hlot₀
        · intro lot hlot
          obtain ⟨lot₀, hlot₀, hR⟩ := forall₂_mem_left hfor lot hlot
          have := hinv lot₀ hlot₀
          obtain ⟨_, _, hq, _, _, hr⟩ := hR
          omega
      cases res <;> exact ⟨hwf'.1, hwf'.2.1, hwf'.2.2⟩
  | ret dt vid fruit boxes dep note =>
    show StockWF (record_return s dt vid fruit boxes dep note).1
    unfold record_return
    split_ifs with h1 h2
    · exact ⟨hnd, hbound, hinv⟩
    · exact ⟨hnd, hbound, hinv⟩
    · refine ⟨nodup_id_append _ _ hnd fun l hl => hbound l hl, ?_, ?_⟩
      · intro lot hlot
        rcases List.mem_append.1 hlot with h | h
        · exact Nat.lt_trans (hbound lot h) (Nat.lt_succ_self _)
        · have : lot = ⟨s.nextStockId, fruit, boxes.toNat,
              return_avg_cost s.stock fruit, dt, boxes.toNat⟩ := by simpa using h
          subst this
          exact Nat.lt_succ_self _
      · intro lot hlot
        rcases List.mem_append.1 hlot with h | h
        · exact hinv lot h
        · have : lot = ⟨s.nextStockId, fruit, boxes.toNat,
              return_avg_cost s.stock fruit, dt, boxes.toNat⟩ := by simpa using h
          subst this
          exact le_refl _
  | pay dt vid amount note =>
    show StockWF (record_payment s dt vid amount note).1
    unfold record_payment
    split_ifs <;> exact ⟨hnd, hbound, hinv⟩
  | upd sale_id u => exact ⟨hnd, hbound, hinv⟩
  | del sale_id => exact ⟨hnd, hbound, hinv⟩

theorem stockWF_runOps : ∀ (ops : List Op) (s : AppState),
    StockWF s → StockWF (runOps ops s)
  | [], _, h => h
  | op :: ops, s, h => stockWF_runOps ops _ (stockWF_applyOp s op h)

theorem applyOp_stock_evolution (s : AppState) (op : Op) (hwf : StockWF s) :
    ∀ lot' ∈ (applyOp s op).stock,
      (∃ lot ∈ s.stock, LotShrinks lot' lot) ∨ lot'.remaining = lot'.quantity := by
  obtain ⟨hnd, hbound, hinv⟩ := hwf
  cases op with
  | add fruit boxes cost dt =>
    intro lot' h
    have h' : lot' ∈ (add_stock s fruit boxes cost dt).1.stock := h
    unfold add_stock at h'
    split_ifs at h' with h1 h2 h3
    · exact Or.inl ⟨lot', h', lotShrinks_refl _⟩
    · exact Or.inl ⟨lot', h', lotShrinks_refl _⟩
    · exact Or.inl ⟨lot', h', lotShrinks_refl _⟩
    · rcases List.mem_append.1 h' with hm | hm
      · exact Or.inl ⟨lot', hm, lotShrinks_refl _⟩
      · right
        have : lot' = ⟨s.nextStockId, pyStrip (pyUpper fruit), boxes.toNat,
            cost, dt, boxes.toNat⟩ := by simpa using hm
        subst this
        rfl
  | vend name contact =>
    intro lot' h
    have h' : lot' ∈ (add_vendor s name contact).1.stock := h
    unfold add_vendor at h'
    split_ifs at h' <;> exact Or.inl ⟨lot', h', lotShrinks_refl _⟩
  | sell dt vid fruit boxes price dep note =>
    intro lot' h
    have h' : lot' ∈ (sell_to_vendor s dt vid fruit boxes price dep note).1.stock := h
    unfold sell_to_vendor at h'
    split_ifs at h' with h1 h2 h3
    · exact Or.inl ⟨lot', h', lotShrinks_refl _⟩
    · exact Or.inl ⟨lot', h', lotShrinks_refl _⟩
    · exact Or.inl ⟨lot', h', lotShrinks_refl _⟩
    · have hfor := reduce_fst_forall₂ s.stock fruit boxes.toNat hnd
      rcases hred : reduce_stock_fifo s.stock fruit boxes.toNat with ⟨stock', res⟩
      rw [hred] at hfor h'
      have hmem : lot' ∈ stock' := by cases res <;> exact h'
      exact Or.inl (forall₂_mem_left hfor lot' hmem)
  | ret dt vid fruit boxes dep note =>
    intro lot' h
    have h' : lot' ∈ (record_return s dt vid fruit boxes dep note).1.stock := h
    unfold record_return at h'
    split_ifs at h' with h1 h2
    · exact Or.inl ⟨lot', h', lotShrinks_refl _⟩
    · exact Or.inl ⟨lot', h', lotShrinks_refl _⟩
    · rcases List.mem_append.1 h' with hm | hm
      · exact Or.inl ⟨lot', hm, lotShrinks_refl _⟩
      · right
        have : lot' = ⟨s.nextStockId, fruit, boxes.toNat,
            return_avg_cost s.stock fruit, dt, boxes.toNat⟩ := by simpa using hm
        subst this
        rfl
  | pay dt vid amount note =>
    intro lot' h
    have h' : lot' ∈ (record_payment s dt vid amount note).1.stock := h
    unfold record_payment at h'
    split_ifs at h' <;> exact Or.inl ⟨lot', h', lotShrinks_refl _⟩
  | upd sale_id u => exact fun lot' h => Or.inl ⟨lot', h, lotShrinks_refl _⟩
  | del sale_id => exact fun lot' h => Or.inl ⟨lot', h, lotShrinks_refl _⟩

/-- Claim C6: in every state reachable by the application's operations from the
empty database, every stock lot satisfies `remaining ≤ quantity` (with
`0 ≤ remaining` inherent in the ℕ model), and one further operation either
keeps each lot identical except for a never-increased `remaining`, or creates a
fresh lot with `remaining = quantity`. -/
theorem c6_remaining_invariant (ops : List Op) (op : Op) :
    (∀ lot ∈ (runOps ops initState).stock, lot.remaining ≤ lot.quantity)
      ∧ (∀ lot' ∈ (applyOp (runOps ops initState) op).stock,
          (∃ lot ∈ (runOps ops initState).stock, LotShrinks lot' lot)
            ∨ lot'.remaining = lot'.quantity) := by
  have hwf := stockWF_runOps ops initState stockWF_initState
  exact ⟨hwf.2.2, applyOp_stock_evolution _ op hwf⟩

/-! ### Change-request workflow (spec §4.3) -/

/-- Status of a change request. -/
inductive CRStatus where
  | pending
  | approved
  | rejected
deriving DecidableEq, Repr

/-- Modelled from the spec: the snapshot of a Sale's editable fields carried by
a change request (`current_data` / `requested_data`).  The change-request
workflow of spec §4.3 has no implementation in the repository's source file;
these definitions follow the spec's wording. -/
structure SaleSnapshot where
  dt : Nat
  fruit : String
  boxes : Int
  price_per_box : ℚ
  box_deposit_per_box : ℚ
  note : String
deriving DecidableEq, Repr

/-- Modelled from the spec: a ChangeRequest row (spec §3). -/
structure ChangeRequest where
  id : Nat
  sale_id : Nat
  requested_by : String
  requester_name : String
  current_data : SaleSnapshot
  requested_data : SaleSnapshot
  status : CRStatus
  note : String
  reviewed_by : Option String
  admin_comment : Option String
deriving DecidableEq, Repr

/-- Modelled from the spec: the tables the workflow acts on. -/
structure CRState where
  sales : List Sale
  requests : List ChangeRequest
deriving DecidableEq, Repr

/-- Errors of the workflow operations (spec §7). -/
inductive CRError where
  | notFound
  | invalidState
  | emptyReason
deriving DecidableEq, Repr

/-- Modelled from the spec: `submit` captures both snapshots verbatim, never
touches the Sale row, and always creates a request with `status = pending`. -/
def submitRequest (st : CRState) (nextId sale_id : Nat)
    (current requested : SaleSnapshot) (requester requesterName note : String) :
    CRState × ChangeRequest :=
  ({ st with requests := st.requests ++
      [⟨nextId, sale_id, requester, requesterName, current, requested,
        CRStatus.pending, note, none, none⟩] },
    ⟨nextId, sale_id, requester, requesterName, current, requested,
      CRStatus.pending, note, none, none⟩)

/-- Look a change request up by id. -/
def findRequest (st : CRState) (rid : Nat) : Option ChangeRequest :=
  st.requests.find? fun r => r.id = rid

/-- Modelled from the spec: `approve(request_id, reviewer)` fails when the
request is missing or not `pending`; on success it recomputes `total_price` and
`box_deposit_collected` from the requested snapshot, overwrites the Sale row,
then freezes the request as `approved` with the reviewer recorded. -/
def approveRequest (st : CRState) (rid : Nat) (reviewer : String) :
    CRState × Option CRError :=
  match st.requests.find? fun r => r.id = rid with
  | none => (st, some CRError.notFound)
  | some req =>
    if req.status ≠ CRStatus.pending then (st, some CRError.invalidState)
    else
      ({ sales := st.sales.map fun sale =>
            if sale.id = req.sale_id then
              { sale with
                  dt := req.requested_data.dt,
                  fruit := req.requested_data.fruit,
                  boxes := req.requested_data.boxes,
                  price_per_box := req.requested_data.price_per_box,
                  total_price := (req.requested_data.boxes : ℚ) *
                    req.requested_data.price_per_box,
                  box_deposit_per_box := req.requested_data.box_deposit_per_box,
                  box_deposit_collected := (req.requested_data.boxes : ℚ) *
                    req.requested_data.box_deposit_per_box,
                  note := req.requested_data.note }
            else sale,
          requests := st.requests.map fun r =>
            if r.id = rid then
              { r with status := CRStatus.approved, reviewed_by := some reviewer }
            else r }, none)

/-- Modelled from the spec: `reject(request_id, reviewer, reason)` requires a
non-empty reason and fails when the request is missing or not `pending`; on
success it freezes the request as `rejected` with the comment recorded; the
Sale row is never touched. -/
def rejectRequest (st : CRState) (rid : Nat) (reviewer reason : String) :
    CRState × Option CRError :=
  if reason = "" then (st, some CRError.emptyReason)
  else
    match st.requests.find? fun r => r.id = rid with
    | none => (st, some CRError.notFound)
    | some req =>
      if req.status ≠ CRStatus.pending then (st, some CRError.invalidState)
      else
        ({ st with requests := st.requests.map fun r =>
            if r.id = rid then
              { r with
                  status := CRStatus.rejected,
                  reviewed_by := some reviewer,
                  admin_comment := some reason }
            else r }, none)

theorem find?_req_map (reqs : List ChangeRequest) (rid : Nat)
    (f : ChangeRequest → ChangeRequest) (hf : ∀ r, (f r).id = r.id) :
    ((reqs.map f).find? fun r => r.id = rid)
      = (reqs.find? fun r => r.id = rid).map f := by
  rw [List.find?_map]
  have hpred : ((fun (r : ChangeRequest) => decide (r.id = rid)) ∘ f)
      = fun (r : ChangeRequest) => decide (r.id = rid) := by
    funext r
    simp [Function.comp, hf r]
  rw [hpred]

theorem approveRequest_not_pending (st : CRState) (rid : Nat)
    (req : ChangeRequest) (reviewer : String)
    (hfind : findRequest st rid = some req)
    (hnp : req.status ≠ CRStatus.pending) :
    approveRequest st rid reviewer = (st, some CRError.invalidState) := by
  have hfind' : (st.requests.find? fun r => r.id = rid) = some req := hfind
  simp only [approveRequest, hfind']
  rw [if_pos hnp]

theorem rejectRequest_not_pending (st : CRState) (rid : Nat)
    (req : ChangeRequest) (reviewer reason : String)
    (hfind : findRequest st rid = some req)
    (hnp : req.status ≠ CRStatus.pending) :
    (rejectRequest st rid reviewer reason).1 = st
      ∧ (rejectRequest st rid reviewer reason).2 ≠ none := by
  have hfind' : (st.requests.find? fun r => r.id = rid) = some req := hfind
  unfold rejectRequest
  by_cases hre : reason = ""
  · rw [if_pos hre]
    exact ⟨rfl, by simp⟩
  · rw [if_neg hre]
    simp only [hfind']
    rw [if_pos hnp]
    exact ⟨rfl, by simp⟩

theorem rejectRequest_preserves_sales (st : CRState) (rid : Nat)
    (reviewer reason : String) :
    (rejectRequest st rid reviewer reason).1.sales = st.sales := by
  unfold rejectRequest
  split
  · rfl
  · split
    · rfl
    · split
      · rfl
      · rfl

theorem findRequest_approve (st : CRState) (rid : Nat) (req : ChangeRequest)
    (reviewer : String) (hfind : findRequest st rid = some req)
    (hp : req.status = CRStatus.pending) :
    findRequest (approveRequest st rid reviewer).1 rid
      = some { req with
          status := CRStatus.approved, reviewed_by := some reviewer } := by
  have hfind' : (st.requests.find? fun r => r.id = rid) = some req := hfind
  have hreqid : req.id = rid := by simpa using List.find?_some hfind'
  have hnotne : ¬ req.status ≠ CRStatus.pending := by simp [hp]
  unfold findRequest
  simp only [approveRequest, hfind']
  rw [if_neg hnotne]
  show ((st.requests.map fun r =>
      if r.id = rid then
        { r with status := CRStatus.approved, reviewed_by := some reviewer }
      else r).find? fun r => r.id = rid) = _
  rw [find?_req_map st.requests rid _ fun r => by
    by_cases h : r.id = rid <;> simp [h]]
  rw [hfind']
  simp [hreqid]

theorem findRequest_reject (st : CRState) (rid : Nat) (req : ChangeRequest)
    (reviewer reason : String) (hfind : findRequest st rid = some req)
    (hp : req.status = CRStatus.pending) (hre : reason ≠ "") :
    findRequest (rejectRequest st rid reviewer reason).1 rid
      = some { req with
          status := CRStatus.rejected, reviewed_by := some reviewer,
          admin_comment := some reason } := by
  have hfind' : (st.requests.find? fun r => r.id = rid) = some req := hfind
  have hreqid : req.id = rid := by simpa using List.find?_some hfind'
  have hnotne : ¬ req.status ≠ CRStatus.pending := by simp [hp]
  unfold findRequest rejectRequest
  rw [if_neg hre]
  simp only [hfind']
  rw [if_neg hnotne]
  show ((st.requests.map fun r =>
      if r.id = rid then
        { r with
            status := CRStatus.rejected, reviewed_by := some reviewer,
            admin_comment := some reason }
      else r).find? fun r => r.id = rid) = _
  rw [find?_req_map st.requests rid _ fun r => by
    by_cases h : r.id = rid <;> simp [h]]
  rw [hfind']
  simp [hreqid]

/-- Claim C5: every change request is created `pending`; a pending request makes
exactly one transition, to `approved` or to `rejected`; both are terminal — a
second approve or reject errors out with no effect on the state; and a reject
with an empty reason is refused, leaving the request `pending` and the sales
table untouched. -/
theorem c5_change_request_lifecycle (st : CRState) (rid : Nat)
    (req : ChangeRequest) (reviewer reviewer2 reason : String)
    (hfind : findRequest st rid = some req) :
    (∀ (nextId sale_id : Nat) (cur reqd : SaleSnapshot)
        (requester rname note : String),
        (submitRequest st nextId sale_id cur reqd requester rname note).2.status
            = CRStatus.pending
          ∧ (submitRequest st nextId sale_id cur reqd requester rname note).1.sales
            = st.sales)
      ∧ (req.status ≠ CRStatus.pending →
          approveRequest st rid reviewer = (st, some CRError.invalidState)
            ∧ (rejectRequest st rid reviewer reason).1 = st
            ∧ (rejectRequest st rid reviewer reason).2 ≠ none)
      ∧ (req.status = CRStatus.pending →
          findRequest (approveRequest st rid reviewer).1 rid
              = some { req with
                  status := CRStatus.approved, reviewed_by := some reviewer }
            ∧ approveRequest (approveRequest st rid reviewer).1 rid reviewer2
              = ((approveRequest st rid reviewer).1, some CRError.invalidState)
            ∧ (rejectRequest (approveRequest st rid reviewer).1 rid reviewer2
                reason).1 = (approveRequest st rid reviewer).1
            ∧ (rejectRequest (approveRequest st rid reviewer).1 rid reviewer2
                reason).2 ≠ none)
      ∧ (req.status = CRStatus.pending → reason ≠ "" →
          findRequest (rejectRequest st rid reviewer reason).1 rid
              = some { req with
                  status := CRStatus.rejected, reviewed_by := some reviewer,
                  admin_comment := some reason }
            ∧ (rejectRequest st rid reviewer reason).1.sales = st.sales
            ∧ approveRequest (rejectRequest st rid reviewer reason).1 rid reviewer2
              = ((rejectRequest st rid reviewer reason).1,
                  some CRError.invalidState))
      ∧ rejectRequest st rid reviewer "" = (st, some CRError.emptyReason) := by
  refine ⟨fun _ _ _ _ _ _ _ => ⟨rfl, rfl⟩, ?_, ?_, ?_, ?_⟩
  · intro hnp
    exact ⟨approveRequest_not_pending st rid req reviewer hfind hnp,
      (rejectRequest_not_pending st rid req reviewer reason hfind hnp).1,
      (rejectRequest_not_pending st rid req reviewer reason hfind hnp).2⟩
  · intro hp
    have hfind2 := findRequest_approve st rid req reviewer hfind hp
    refine ⟨hfind2, ?_, ?_, ?_⟩
    · exact approveRequest_not_pending _ rid _ reviewer2 hfind2 (by simp)
    · exact (rejectRequest_not_pending _ rid _ reviewer2 reason hfind2 (by simp)).1
    · exact (rejectRequest_not_pending _ rid _ reviewer2 reason hfind2 (by simp)).2
  · intro hp hre
    have hfind3 := findRequest_reject st rid req reviewer reason hfind hp hre
    refine ⟨hfind3, rejectRequest_preserves_sales st rid reviewer reason, ?_⟩
    exact approveRequest_not_pending _ rid _ reviewer2 hfind3 (by simp)
  · unfold rejectRequest
    rw [if_pos rfl]

/-! ### Vendor ledger -/

theorem addRunning_length : ∀ (l : List LedgerRow) (due dep : ℚ),
    (addRunning l due dep).length = l.length
  | [], _, _ => rfl
  | r :: rest, due, dep => by
    simp [addRunning, addRunning_length rest]

theorem addRunning_map_fst : ∀ (l : List LedgerRow) (due dep : ℚ),
    (addRunning l due dep).map Prod.fst = l
  | [], _, _ => rfl
  | r :: rest, due, dep => by
    simp [addRunning, addRunning_map_fst rest]

theorem addRunning_get : ∀ (l : List LedgerRow) (due dep : ℚ) (k : Nat)
    (hk : k < (addRunning l due dep).length) (hk' : k < l.length),
    (addRunning l due dep).get ⟨k, hk⟩
      = (l.get ⟨k, hk'⟩,
          due + ((l.take (k + 1)).map fun r => r.sale_amount).sum,
          dep + ((l.take (k + 1)).map fun r => r.deposit).sum)
  | [], _, _, k, _, hk' => by simp at hk'
  | r :: rest, due, dep, 0, hk, hk' => by
    simp [addRunning]
  | r :: rest, due, dep, k + 1, hk, hk' => by
    have hk2 : k < rest.length := by simpa using hk'
    have hk3 : k < (addRunning rest (due + r.sale_amount) (dep + r.deposit)).length := by
      rw [addRunning_length]
      exact hk2
    have ih := addRunning_get rest (due + r.sale_amount) (dep + r.deposit) k hk3 hk2
    simp only [addRunning, List.get_eq_getElem, List.getElem_cons_succ,
      List.take_succ_cons, List.map_cons, List.sum_cons]
    simp only [List.get_eq_getElem] at ih
    rw [ih]
    refine congrArg _ ?_
    simp only [Prod.mk.injEq]
    constructor <;> ring

/-- Claim C8 (amended): every possible vendor-ledger output is sorted by date
ascending; its `running_due`/`running_deposits` columns are the prefix sums of
the per-row contributions; each SALE row contributes `+total_price` to the due
column and `+box_deposit_collected` to the deposits column, each PAYMENT row
`-amount` to due (0 to deposits), and each RETURN row `-box_deposit_refunded`
to deposits (0 to due).  No order among equal-date rows is guaranteed (the
date-only sort is unstable); in particular ties are not broken by
insertion/creation order. -/
theorem c8_vendor_ledger (s : AppState) (vid : Nat)
    (rows : List (LedgerRow × ℚ × ℚ)) (h : VendorLedger s vid rows) :
    List.Pairwise (fun a b => a.1.date ≤ b.1.date) rows
      ∧ (∀ (k : Nat) (hk : k < rows.length),
          (rows.get ⟨k, hk⟩).2.1
              = ((rows.take (k + 1)).map fun x => x.1.sale_amount).sum
            ∧ (rows.get ⟨k, hk⟩).2.2
              = ((rows.take (k + 1)).map fun x => x.1.deposit).sum)
      ∧ (∀ x ∈ rows,
          (x.1.type = EntryType.SALE → ∃ sale ∈ s.sales, sale.vendor_id = vid
              ∧ x.1.sale_amount = sale.total_price
              ∧ x.1.deposit = sale.box_deposit_collected)
            ∧ (x.1.type = EntryType.PAYMENT → ∃ p ∈ s.payments,
                p.vendor_id = vid ∧ x.1.sale_amount = -p.amount
                  ∧ x.1.deposit = 0)
            ∧ (x.1.type = EntryType.RETURN → ∃ r ∈ s.returns, r.vendor_id = vid
                ∧ x.1.sale_amount = 0
                  ∧ x.1.deposit = -r.box_deposit_refunded)) := by
  obtain ⟨sorted, hperm, hsorted, heq⟩ := h
  subst heq
  have hfst : (addRunning sorted 0 0).map Prod.fst = sorted :=
    addRunning_map_fst _ 0 0
  refine ⟨?_, ?_, ?_⟩
  · rw [← hfst] at hsorted
    have h2 := List.pairwise_map.1 hsorted
    exact h2.imp fun h => by simpa [dateLe] using h
  · intro k hk
    have hk' : k < sorted.length := by
      have hlen := addRunning_length sorted (0 : ℚ) (0 : ℚ)
      omega
    have hget := addRunning_get sorted 0 0 k hk hk'
    have hconv1 : ((addRunning sorted 0 0).take (k + 1)).map
        (fun x => x.1.sale_amount)
          = ((sorted.take (k + 1)).map fun r => r.sale_amount) := by
      have e1 : ((addRunning sorted 0 0).take (k + 1)).map
          (fun (x : LedgerRow × ℚ × ℚ) => x.1.sale_amount)
            = (((addRunning sorted 0 0).take (k + 1)).map Prod.fst).map
                fun r => r.sale_amount := by
        rw [List.map_map]
        rfl
      rw [e1, List.map_take, hfst]
    have hconv2 : ((addRunning sorted 0 0).take (k + 1)).map
        (fun x => x.1.deposit)
          = ((sorted.take (k + 1)).map fun r => r.deposit) := by
      have e1 : ((addRunning sorted 0 0).take (k + 1)).map
          (fun (x : LedgerRow × ℚ × ℚ) => x.1.deposit)
            = (((addRunning sorted 0 0).take (k + 1)).map Prod.fst).map
                fun r => r.deposit := by
        rw [List.map_map]
        rfl
      rw [e1, List.map_take, hfst]
    constructor
    · rw [show (addRunning sorted 0 0).get ⟨k, hk⟩ = _ from hget, hconv1]
      simp
    · rw [show (addRunning sorted 0 0).get ⟨k, hk⟩ = _ from hget, hconv2]
      simp
  · intro x hx
    have hx1 : x.1 ∈ sorted := by
      have hm : x.1 ∈ (addRunning sorted 0 0).map Prod.fst :=
        List.mem_map_of_mem Prod.fst hx
      rwa [hfst] at hm
    have hxbase : x.1 ∈ ledgerBase s vid := hperm.subset hx1
    unfold ledgerBase at hxbase
    rcases List.mem_append.1 hxbase with h12 | h3
    · rcases List.mem_append.1 h12 with h1 | h2
      · obtain ⟨sale, hsale, hrow⟩ := List.mem_map.1 h1
        have hmem := List.mem_filter.1 hsale
        refine ⟨fun _ => ⟨sale, hmem.1, by simpa using hmem.2, ?_, ?_⟩,
          fun htype => ?_, fun htype => ?_⟩
        · rw [← hrow]
          exact rfl
        · rw [← hrow]
          exact rfl
        · rw [← hrow] at htype
          simp [saleRowOf] at htype
        · rw [← hrow] at htype
          simp [saleRowOf] at htype
      · obtain ⟨p, hp, hrow⟩ := List.mem_map.1 h2
        have hmem := List.mem_filter.1 hp
        refine ⟨fun htype => ?_,
          fun _ => ⟨p, hmem.1, by simpa using hmem.2, ?_, ?_⟩,
          fun htype => ?_⟩
        · rw [← hrow] at htype
          simp [paymentRowOf] at htype
        · rw [← hrow]
          exact rfl
        · rw [← hrow]
          exact rfl
        · rw [← hrow] at htype
          simp [paymentRowOf] at htype
    · obtain ⟨r, hr, hrow⟩ := List.mem_map.1 h3
      have hmem := List.mem_filter.1 hr
      refine ⟨fun htype => ?_, fun htype => ?_,
        fun _ => ⟨r, hmem.1, by simpa using hmem.2, ?_, ?_⟩⟩
      · rw [← hrow] at htype
        simp [returnRowOf] at htype
      · rw [← hrow] at htype
        simp [returnRowOf] at htype
      · rw [← hrow]
        exact rfl
      · rw [← hrow]
        exact rfl

/-- Claim C8, counterexample to the tie-break by creation order: run a return
(created first) and then a payment (created second), both for vendor 1 and both
dated 5.  The claimed creation-order tie-break would force every ledger output
for this history to list the RETURN row before the PAYMENT row; but appending
the running columns to the concatenated frame itself — payments block before
returns block, already date-sorted, and the very order pandas emits for this
frame — is a possible output of `vendor_ledger_df`, and it lists PAYMENT
first. -/
theorem c8_counterexample :
    ∃ rows, VendorLedger
        (runOps [Op.ret 5 1 "APPLE" 2 0 "", Op.pay 5 1 30 ""] initState) 1 rows
      ∧ rows.map (fun x => x.1.type)
        = [EntryType.PAYMENT, EntryType.RETURN] := by
  refine ⟨addRunning (ledgerBase
      (runOps [Op.ret 5 1 "APPLE" 2 0 "", Op.pay 5 1 30 ""] initState) 1) 0 0,
    ⟨ledgerBase (runOps [Op.ret 5 1 "APPLE" 2 0 "", Op.pay 5 1 30 ""] initState) 1,
      List.Perm.refl _, by decide, rfl⟩, ?_⟩
  have h1 : (addRunning (ledgerBase
      (runOps [Op.ret 5 1 "APPLE" 2 0 "", Op.pay 5 1 30 ""] initState) 1) 0 0).map
        (fun x => x.1.type)
      = ((addRunning (ledgerBase
          (runOps [Op.ret 5 1 "APPLE" 2 0 "", Op.pay 5 1 30 ""] initState) 1)
            0 0).map Prod.fst).map (fun r => r.type) := by
    rw [List.map_map]
    rfl
  rw [h1, addRunning_map_fst]
  decide

/-! ### Witnesses -/

def wStock : List StockLot :=
  [⟨1, "APPLE", 10, 500, 1, 10⟩, ⟨2, "APPLE", 5, 600, 2, 5⟩]

theorem c2_fifo_depletion_witness :
    ((wStock.map StockLot.id).Nodup)
      ∧ (reduce_stock_fifo wStock "APPLE" 12).2 = FifoResult.ok
      ∧ fruitRemaining (reduce_stock_fifo wStock "APPLE" 12).1 "APPLE" + 12
          = fruitRemaining wStock "APPLE" := by
  have hok : (reduce_stock_fifo wStock "APPLE" 12).2 = FifoResult.ok := by
    unfold reduce_stock_fifo
    rw [show sortedLiveLots wStock "APPLE" = liveLots wStock "APPLE" from
      List.mergeSort_of_sorted (by decide)]
    decide
  exact ⟨by decide, hok, (c2_fifo_depletion wStock "APPLE" 12 (by decide) hok).1⟩

def wLotA : StockLot := ⟨1, "APPLE", 10, 500, 1, 10⟩

def wLotB : StockLot := ⟨2, "APPLE", 5, 600, 2, 5⟩

theorem c3_weighted_avg_cost_witness :
    ([wLotA, wLotB] : List StockLot).Perm [wLotB, wLotA]
      ∧ compute_weighted_avg_cost [wLotA, wLotB] "APPLE" none
          = compute_weighted_avg_cost [wLotB, wLotA] "APPLE" none :=
  ⟨by decide,
    (c3_weighted_avg_cost [wLotA, wLotB] [wLotB, wLotA] "APPLE" none
      (by decide)).2.2⟩

def wSaleState : AppState :=
  { initState with
      sales := [⟨7, 1, 1, "APPLE", 5, 700, 3500, 0, 0, ""⟩], nextSaleId := 8 }

def wUpd : SaleUpdate := ⟨2, "APPLE", 8, 750, 10, "", some 999, some 999⟩

def wSaleRow : Sale := ⟨7, 2, 1, "APPLE", 8, 750, 6000, 10, 80, ""⟩

theorem c4_update_sale_witness :
    wSaleRow ∈ (update_sale_record wSaleState 7 wUpd).1.sales
      ∧ wSaleRow.id = 7
      ∧ wSaleRow.total_price = (wUpd.boxes : ℚ) * wUpd.price_per_box := by
  have hs : (update_sale_record wSaleState 7 wUpd).1.sales = [wSaleRow] := by
    simp only [update_sale_record, wSaleState, wUpd, wSaleRow, initState,
      List.map_cons, List.map_nil]
    norm_num
  have hmem : wSaleRow ∈ (update_sale_record wSaleState 7 wUpd).1.sales := by
    rw [hs]
    exact List.mem_singleton_self _
  refine ⟨hmem, by decide, ?_⟩
  have hval := ((c4_update_sale wSaleState 7 wUpd none none).1 wSaleRow hmem
    (by decide)).1
  exact hval

def wReq : ChangeRequest :=
  ⟨1, 1, "user", "User", ⟨1, "APPLE", 1, 1, 0, ""⟩, ⟨1, "APPLE", 2, 1, 0, ""⟩,
    CRStatus.pending, "", none, none⟩

def wCR : CRState := { sales := [], requests := [wReq] }

theorem c5_change_request_lifecycle_witness :
    findRequest wCR 1 = some wReq
      ∧ rejectRequest wCR 1 "admin" "" = (wCR, some CRError.emptyReason) :=
  ⟨by decide,
    (c5_change_request_lifecycle wCR 1 wReq "admin" "admin2" "stale"
      (by decide)).2.2.2.2⟩

def wOps : List Op := [Op.add "apple" 5 500 1]

def wOp : Op := Op.ret 2 1 "PEAR" 3 0 ""

def wNewLot : StockLot := ⟨2, "PEAR", 3, 0, 2, 3⟩

theorem c6_remaining_invariant_witness :
    wNewLot ∈ (applyOp (runOps wOps initState) wOp).stock
      ∧ ((∃ lot ∈ (runOps wOps initState).stock, LotShrinks wNewLot lot)
          ∨ wNewLot.remaining = wNewLot.quantity) :=
  ⟨by decide, (c6_remaining_invariant wOps wOp).2 wNewLot (by decide)⟩

def wRetState : AppState :=
  { initState with stock := [⟨1, "APPLE", 10, 500, 1, 10⟩], nextStockId := 2 }

theorem c7_record_return_witness :
    (0 : Int) < 2 ∧ (0 : ℚ) ≤ 5
      ∧ record_return wRetState 3 1 "APPLE" 2 5 ""
        = ({ wRetState with
              returns := wRetState.returns ++
                [⟨wRetState.nextReturnId, 3, 1, "APPLE", Int.toNat 2,
                  ((2 : Int) : ℚ) * 5, ""⟩],
              stock := wRetState.stock ++
                [⟨wRetState.nextStockId, "APPLE", Int.toNat 2,
                  compute_weighted_avg_cost wRetState.stock "APPLE" none, 3,
                  Int.toNat 2⟩],
              nextReturnId := wRetState.nextReturnId + 1,
              nextStockId := wRetState.nextStockId + 1 }, true) :=
  ⟨by decide, by decide,
    c7_record_return wRetState 3 1 "APPLE" 2 5 "" (by decide) (by decide)⟩

def wLedState : AppState :=
  { initState with payments := [⟨1, 5, 1, 30, ""⟩], nextPaymentId := 2 }

def wLedRow : LedgerRow × ℚ × ℚ := (paymentRowOf ⟨1, 5, 1, 30, ""⟩, -30, 0)

theorem c8_vendor_ledger_witness :
    VendorLedger wLedState 1 [wLedRow]
      ∧ (wLedRow.1.type = EntryType.PAYMENT → ∃ p ∈ wLedState.payments,
          p.vendor_id = 1 ∧ wLedRow.1.sale_amount = -p.amount
            ∧ wLedRow.1.deposit = 0) := by
  have hls : addRunning (ledgerBase wLedState 1) 0 0 = [wLedRow] := by
    simp [addRunning, ledgerBase, wLedState, wLedRow, initState, paymentRowOf]
  have hvl : VendorLedger wLedState 1 [wLedRow] :=
    ⟨ledgerBase wLedState 1, List.Perm.refl _, by decide, hls.symm⟩
  exact ⟨hvl, ((c8_vendor_ledger wLedState 1 [wLedRow] hvl).2.2 wLedRow
    (List.mem_singleton_self _)).2.1⟩

theorem c9_fruit_keys_witness :
    pyStrip " apple " ≠ "" ∧ (0 : Int) < 5 ∧ (0 : ℚ) ≤ 2
      ∧ (0 : Int) < 3 ∧ (0 : ℚ) ≤ 0
      ∧ (add_stock initState " apple " 5 2 1).1.stock.map StockLot.fruit
        = initState.stock.map StockLot.fruit ++ [pyStrip (pyUpper " apple ")] :=
  ⟨by decide, by decide, by decide, by decide, by decide,
    (c9_fruit_keys initState " apple " 5 2 1 2 1 "KIWI" 3 0 "" (by decide)
      (by decide) (by decide) (by decide) (by decide)).1⟩

def wSaleB : Sale := ⟨2, 1, 1, "B", 1, 1, 1, 0, 0, ""⟩

def wDelState : AppState :=
  { initState with
      sales := [⟨1, 1, 1, "A", 1, 1, 1, 0, 0, ""⟩, wSaleB], nextSaleId := 3 }

theorem c10_delete_sale_witness :
    wSaleB ∈ wDelState.sales ∧ wSaleB.id ≠ 1
      ∧ wSaleB ∈ (delete_sale_record wDelState 1).1.sales :=
  ⟨by decide, by decide,
    (c10_delete_sale wDelState 1).2.2.2.2.1 wSaleB (by decide) (by decide)⟩
